import Mathlib

/-!
Shallow embedding of the `mylg` traceroute engine (`src/icmp/trace.go`).

Bytes are modelled as `Nat` values below 256, machine integers as `Nat`/`Int`
with explicit `% 2^w` where Go wraps, Go `float64` as `ℚ`, Go errors as
`Option String` (`none` = nil error), and network / syscall effects as
explicit oracle parameters.  Structures `Whois`, `HopResp` and `ICMPResp`
are declared in a sibling file of the package (not under `src/`); their
field sets are pinned down by the positional literals and field accesses in
`trace.go` and by the spec's data model (section 3).
-/

/-- Whois enrichment record: `{holder, asn}` (spec section 3; written through
`resp.holder` / `resp.asn` in `trace.go`).  Go's `float64 asn` is modelled
as `ℚ`. -/
structure Whois where
  holder : String
  asn : ℚ
deriving DecidableEq, Repr, Inhabited

/-- Hop result record.  Field order matches the positional literals in
`Trace.NextHop` (`HopResp{hop, "", "", 0, false, nil, Whois{}}`):
num, hop (PTR name), ip, elapsed (ms, float64 as `ℚ`), last, err, whois. -/
structure HopResp where
  num : Nat
  hop : String
  ip : String
  elapsed : ℚ
  last : Bool
  err : Option String
  whois : Whois
deriving DecidableEq, Repr, Inhabited

/-! ## checkSum (`trace.go` lines 881-894) -/

/-- The summation loop of `checkSum`: big-endian 16-bit words accumulated in
a `uint32` (hence `% 2^32`); a trailing odd byte is added *unshifted*
(`sum += uint32(data[length])`), exactly as the Go code does. -/
def checkSumWords : List Nat → Nat → Nat
  | [], s => s
  | [b], s => (s + b) % 4294967296
  | b1 :: b2 :: rest, s => checkSumWords rest ((s + (b1 * 256 + b2)) % 4294967296)

/-- The carry-folding loop `for (sum >> 16) > 0 { sum = (sum >> 16) + (sum & 0xffff) }`.
A fuel of 34 is ample: any value below `2^32` is fully folded after two
iterations, and all inputs fed to this function are below `2^32`. -/
def foldCarry : Nat → Nat → Nat
  | 0, s => s
  | fuel + 1, s => if s / 65536 > 0 then foldCarry fuel (s / 65536 + s % 65536) else s

/-- Function `checkSum` from `trace.go`: word sum, carry fold, then `uint16(^sum)`
(bitwise complement of a `uint32`, truncated to 16 bits). -/
def checkSum (data : List Nat) : Nat :=
  let s := foldCarry 34 (checkSumWords data 0)
  (4294967295 - s) % 65536

/-- Modelled from the spec (section 4.1 "Checksum"): identical to `checkSum`
except that, as the spec demands, a trailing odd byte is "added shifted
left 8" before the carry fold and inversion. -/
def checkSumSpecWords : List Nat → Nat → Nat
  | [], s => s
  | [b], s => (s + b * 256) % 4294967296
  | b1 :: b2 :: rest, s => checkSumSpecWords rest ((s + (b1 * 256 + b2)) % 4294967296)

/-- Modelled from the spec: the checksum as the spec describes it. -/
def checkSumSpec (data : List Nat) : Nat :=
  let s := foldCarry 34 (checkSumSpecWords data 0)
  (4294967295 - s) % 65536

/-- C5: on the odd-length input `[0x01]` the code adds the final byte
*unshifted* and returns `0xFFFE`, while the claimed algorithm (final odd
byte shifted left 8) returns `0xFEFF`.  The two functions agree on all
even-length inputs, so the slip is visible exactly on odd lengths. -/
theorem checkSum_odd_byte_bug :
    checkSum [1] = 65534 ∧ checkSumSpec [1] = 65279 ∧ checkSum [1] ≠ checkSumSpec [1] := by
  decide

/-! ## udpMessage (`trace.go` lines 755-776) -/

/-- Big-endian encoding of a `uint16` written with `binary.Write`; the Go
conversion `uint16(x)` of an `int` wraps modulo `2^16`. -/
def be16 (x : Int) : List Nat :=
  let v := (x % 65536).toNat
  [v / 256, v % 256]

/-- Function `udpMessage`: UDP header (source port, destination port, length `8+pSize`,
zero checksum) followed by a zero payload, where `pSize` is first reduced
by the IP+UDP header overhead (28 bytes for IPv4, 48 for IPv6) and the
payload is emitted only when the reduced size is positive. -/
def udpMessage (lport rport pSize : Int) (isIPv4 : Bool) : List Nat :=
  let p := if isIPv4 then pSize - (20 + 8) else pSize - (40 + 8)
  be16 lport ++ be16 rport ++ be16 (8 + p) ++ be16 0 ++
    (if 0 < p then List.replicate p.toNat 0 else [])

/-- Big-endian 16-bit read at byte offset `i` (out-of-range bytes read as 0). -/
def readBE16 (b : List Nat) (i : Nat) : Nat :=
  b.getD i 0 * 256 + b.getD (i + 1) 0

theorem be16_eval (x : Int) (h0 : 0 ≤ x) (h1 : x < 65536) :
    be16 x = [x.toNat / 256, x.toNat % 256] := by
  unfold be16
  rw [Int.emod_eq_of_lt h0 h1]

theorem be16_coe (n : Nat) (h : n < 65536) : be16 (n : Int) = [n / 256, n % 256] := by
  rw [be16_eval _ (Int.natCast_nonneg n) (by exact_mod_cast h)]
  simp

theorem udp_pad_eq (p : Int) :
    (if 0 < p then List.replicate p.toNat 0 else []) = List.replicate p.toNat (0 : Nat) := by
  split
  · rfl
  · rename_i h
    rw [Int.toNat_of_nonpos (by omega)]
    rfl

theorem replicate_getD_zero (n i : Nat) : (List.replicate n (0 : Nat)).getD i 0 = 0 := by
  induction n generalizing i with
  | zero => rfl
  | succ n ih =>
    cases i with
    | zero => rfl
    | succ i => simp only [List.replicate, List.getD_cons_succ]; exact ih i

/-- C6: for `28 ≤ packet_size ≤ 1500` the IPv4 UDP probe built with a source
port `64000 + 100*r` (`r ∈ {0,1,2}`, as chosen in `Trace.Sendv4`) and the
destination port 33434 (as passed from `Trace.NextHop`) decodes to those
ports, a length field of `packet_size - 20`, a zero checksum field, and an
all-zero payload making the total `packet_size` minus the 20-byte IP header. -/
theorem udpMessage_decodes (r pSize : Nat) (hr : r < 3) (h1 : 28 ≤ pSize) (h2 : pSize ≤ 1500) :
    readBE16 (udpMessage ((64000 + r * 100 : Nat) : Int) 33434 (pSize : Int) true) 0
      = 64000 + r * 100 ∧
    readBE16 (udpMessage ((64000 + r * 100 : Nat) : Int) 33434 (pSize : Int) true) 2 = 33434 ∧
    readBE16 (udpMessage ((64000 + r * 100 : Nat) : Int) 33434 (pSize : Int) true) 4
      = pSize - 20 ∧
    readBE16 (udpMessage ((64000 + r * 100 : Nat) : Int) 33434 (pSize : Int) true) 6 = 0 ∧
    (udpMessage ((64000 + r * 100 : Nat) : Int) 33434 (pSize : Int) true).length = pSize - 20 ∧
    (∀ i, 8 ≤ i →
      (udpMessage ((64000 + r * 100 : Nat) : Int) 33434 (pSize : Int) true).getD i 0 = 0) := by
  have e1 : be16 ((64000 + r * 100 : Nat) : Int)
      = [(64000 + r * 100) / 256, (64000 + r * 100) % 256] := be16_coe _ (by omega)
  have e2 : be16 (33434 : Int) = [130, 154] := by decide
  have e3 : ((8 : Int) + ((pSize : Int) - (20 + 8))) = ((pSize - 20 : Nat) : Int) := by omega
  have e4 : be16 ((pSize - 20 : Nat) : Int) = [(pSize - 20) / 256, (pSize - 20) % 256] :=
    be16_coe _ (by omega)
  have e5 : be16 (0 : Int) = [0, 0] := by decide
  have e6 : ((pSize : Int) - (20 + 8)).toNat = pSize - 28 := by omega
  have hud : udpMessage ((64000 + r * 100 : Nat) : Int) 33434 (pSize : Int) true
      = (64000 + r * 100) / 256 :: (64000 + r * 100) % 256 :: 130 :: 154 ::
        (pSize - 20) / 256 :: (pSize - 20) % 256 :: 0 :: 0 :: List.replicate (pSize - 28) 0 := by
    simp only [udpMessage, udp_pad_eq, e3, e6, e1, e2, e4, e5, if_true]
    simp
    omega
  refine ⟨?_, ?_, ?_, ?_, ?_, ?_⟩
  · rw [hud]; simp only [readBE16, List.getD_cons_zero, List.getD_cons_succ]; omega
  · rw [hud]; simp only [readBE16, List.getD_cons_zero, List.getD_cons_succ]
  · rw [hud]; simp only [readBE16, List.getD_cons_zero, List.getD_cons_succ]; omega
  · rw [hud]; simp only [readBE16, List.getD_cons_zero, List.getD_cons_succ]
  · rw [hud]; simp only [List.length_cons, List.length_replicate]; omega
  · intro i hi
    obtain ⟨j, rfl⟩ := Nat.exists_eq_add_of_le hi
    rw [hud, Nat.add_comm 8 j]
    exact replicate_getD_zero _ j

/-- Witness for C6 at `r = 0`, `packet_size = 52` (the default). -/
theorem udpMessage_decodes_witness :
    (0 < 3 ∧ 28 ≤ 52 ∧ 52 ≤ 1500) ∧
    (readBE16 (udpMessage ((64000 + 0 * 100 : Nat) : Int) 33434 (52 : Int) true) 0
      = 64000 + 0 * 100 ∧
    readBE16 (udpMessage ((64000 + 0 * 100 : Nat) : Int) 33434 (52 : Int) true) 2 = 33434 ∧
    readBE16 (udpMessage ((64000 + 0 * 100 : Nat) : Int) 33434 (52 : Int) true) 4 = 52 - 20 ∧
    readBE16 (udpMessage ((64000 + 0 * 100 : Nat) : Int) 33434 (52 : Int) true) 6 = 0 ∧
    (udpMessage ((64000 + 0 * 100 : Nat) : Int) 33434 (52 : Int) true).length = 52 - 20 ∧
    (∀ i, 8 ≤ i →
      (udpMessage ((64000 + 0 * 100 : Nat) : Int) 33434 (52 : Int) true).getD i 0 = 0)) :=
  ⟨⟨by decide, by decide, by decide⟩,
    udpMessage_decodes 0 52 (by decide) (by decide) (by decide)⟩

/-- C9 counterexample: at `packet_size = 20 < 28` the code does *not* reject:
`udpMessage` happily returns an 8-byte UDP header (ports 64000/33434, a
wrapped length field of 0, zero checksum) with no payload.  Neither
`udpMessage` nor `NewTrace` has any packet-size validation or error path. -/
theorem udpMessage_undersize_cex :
    udpMessage 64000 33434 20 true = [250, 0, 130, 154, 0, 0, 0, 0] := by decide

/-- C9 amended: for `packet_size < 28` in IPv4 UDP mode no error is raised;
the probe is just the 8-byte UDP header with no payload (never a negative
payload), and its length field is `(packet_size - 20) mod 2^16`. -/
theorem udpMessage_undersize (lport rport pSize : Int) (h : pSize < 28) :
    (udpMessage lport rport pSize true).length = 8 ∧
    readBE16 (udpMessage lport rport pSize true) 4
      = ((8 + (pSize - (20 + 8))) % 65536).toNat := by
  have hp : ¬ (0 < pSize - (20 + 8)) := by omega
  constructor
  · simp [udpMessage, if_neg hp, be16]
    omega
  · simp only [udpMessage, if_neg hp, be16, if_true]
    simp only [List.append_nil, List.cons_append, List.nil_append, readBE16,
      List.getD_cons_zero, List.getD_cons_succ]
    omega

/-- Witness for C9's amended theorem at the failing input `packet_size = 20`. -/
theorem udpMessage_undersize_witness :
    ((20 : Int) < 28) ∧
    ((udpMessage 64000 33434 20 true).length = 8 ∧
      readBE16 (udpMessage 64000 33434 20 true) 4
        = ((8 + ((20 : Int) - (20 + 8))) % 65536).toNat) :=
  ⟨by decide, udpMessage_undersize 64000 33434 20 (by decide)⟩

/-! ## tcpMessage (`trace.go` lines 778-852) -/

/-- Big-endian encoding of a `uint32` (`binary.Write` of `rand.Uint32()` etc.). -/
def be32 (x : Nat) : List Nat :=
  let v := x % 4294967296
  [v / 16777216, v / 65536 % 256, v / 256 % 256, v % 256]

/-- Big-endian encoding of a `uint64` (`binary.Write(tb, BigEndian, uint64(now))`). -/
def be64 (x : Nat) : List Nat :=
  let v := x % 18446744073709551616
  [v / 72057594037927936, v / 281474976710656 % 256, v / 1099511627776 % 256,
   v / 4294967296 % 256, v / 16777216 % 256, v / 65536 % 256, v / 256 % 256, v % 256]

/-- Structure `TCPOption` from `trace.go`. -/
structure TCPOption where
  kind : Nat
  length : Nat
  data : List Nat

/-- The option-writing loop of `tcpMessage`: always the kind byte, and the
length byte plus data only when `length > 1`. -/
def writeTCPOptions : List TCPOption → List Nat
  | [] => []
  | o :: rest =>
      (o.kind :: (if 1 < o.length then o.length :: o.data else [])) ++ writeTCPOptions rest

/-- Function `tcpMessage`: TCP-SYN segment with data offset 11 (`mix = 11<<12 | 2`,
i.e. SYN flag only), window `0xFFFF`, zero checksum/urgent fields, the
option list from the source (MSS, window scale, SACK-permitted, an 8-byte
timestamp, end-of-options) and zero padding up to `offset*4 = 44` bytes.
`rand.Uint32()` and `time.Now().Unix()` are oracles `seqNum` / `tsNow`.
The `pSize` and `isIPv4` parameters are never read in the Go body. -/
def tcpMessage (seqNum tsNow : Nat) (lport rport pSize : Nat) (isIPv4 : Bool) : List Nat :=
  let offset : Nat := 8 + 3
  let mix : Nat := offset * 4096 + 2
  let tcpOptions : List TCPOption :=
    [{ kind := 2, length := 4, data := [5, 180] },
     { kind := 3, length := 3, data := [5] },
     { kind := 4, length := 2, data := [1] },
     { kind := 8, length := 10, data := be64 tsNow },
     { kind := 0, length := 0, data := [] }]
  let tcp := be16 (lport : Int) ++ be16 (rport : Int) ++ be32 seqNum ++ be32 0 ++
    be16 (mix : Int) ++ be16 65535 ++ be16 0 ++ be16 0 ++ writeTCPOptions tcpOptions
  tcp ++ List.replicate (offset * 4 - tcp.length) 0

/-- The TCP branch of `Trace.Sendv4`: `b = tcpMessage(0, 33434, 64, true)` —
`i.pSize` is not even passed down. -/
def Trace.sendv4TCPProbe (seqNum tsNow : Nat) (pSize : Nat) : List Nat :=
  tcpMessage seqNum tsNow 0 33434 64 true

/-- C10: the TCP-SYN probe is always exactly 44 bytes (the declared data
offset of 11 32-bit words, read back from byte 12), and is entirely
independent of the `pSize` argument and of `isIPv4`; moreover the
`Trace.Sendv4` TCP branch itself never passes the configured packet size
down, so the `-p` flag has no effect in TCP mode. -/
theorem tcpMessage_fixed_size (seqNum tsNow lport rport pSize pSize2 : Nat) (v4 v42 : Bool) :
    (tcpMessage seqNum tsNow lport rport pSize v4).length = 44 ∧
    (tcpMessage seqNum tsNow lport rport pSize v4).getD 12 0 / 16 = 11 ∧
    tcpMessage seqNum tsNow lport rport pSize v4 = tcpMessage seqNum tsNow lport rport pSize2 v42 ∧
    Trace.sendv4TCPProbe seqNum tsNow pSize = Trace.sendv4TCPProbe seqNum tsNow pSize2 := by
  refine ⟨?_, ?_, rfl, rfl⟩
  · simp [tcpMessage, be16, be32, be64, writeTCPOptions]
  · simp [tcpMessage, be16, be32, be64, writeTCPOptions]

/-! ## HopResp.Marshal (`trace.go` lines 493-503) -/

/-- Left-pad a digit string with zeros to width `w` (the fractional part of
a `%.Nf` verb). -/
def padZeros (s : String) (w : Nat) : String :=
  String.mk (List.replicate (w - s.length) '0') ++ s

/-- Fixed-point rendering of a rational with `prec` digits after the point,
rounding half to even — Go's `%f` formatting of a `float64` whose value is
the given rational.  Computed directly on numerator and denominator so it
evaluates inside the kernel. -/
def fmtF (q : ℚ) (prec : Nat) : String :=
  let m : Nat := q.num.natAbs * 10 ^ prec
  let d : Nat := q.den
  let lo := m / d
  let r := m % d
  let v : Nat :=
    if 2 * r < d then lo else if d < 2 * r then lo + 1 else if lo % 2 = 0 then lo else lo + 1
  let sign := if q.num < 0 then "-" else ""
  if prec = 0 then sign ++ Nat.repr v
  else sign ++ Nat.repr (v / 10 ^ prec) ++ "." ++ padZeros (Nat.repr (v % 10 ^ prec)) prec

/-- Method `HopResp.Marshal`: the `fmt.Sprintf` template applied to num
(`%d`), hop, ip (`%s`), elapsed (`%.3f`), holder (`%s`), asn (`%.0f`) and
last (`%t`).  The source template reads `"IP" : "%s"` — with a space
before the colon. -/
def HopResp.marshal (h : HopResp) : String :=
  "\x7b \"Id\": " ++ Nat.repr h.num ++ ", \"Hop\": \"" ++ h.hop ++
  "\", \"IP\" : \"" ++ h.ip ++ "\", \"Elapsed\": " ++ fmtF h.elapsed 3 ++
  ", \"Holder\": \"" ++ h.whois.holder ++ "\", \"ASN\": " ++ fmtF h.whois.asn 0 ++
  ", \"Last\": " ++ (if h.last then "true" else "false") ++ " \x7d"

/-- Exact rational 12.345 (= 2469/200), written as a literal `Rat` value so
that it evaluates inside the kernel. -/
def elapsedEx : ℚ := { num := 2469, den := 200, den_nz := by decide, reduced := by decide }

/-- The concrete hop result named by claim C7. -/
def hopEx : HopResp :=
  { num := 5, hop := "r.x", ip := "1.2.3.4", elapsed := elapsedEx, last := false,
    err := none, whois := { holder := "EXAMPLE AS", asn := 64500 } }

/-- C7 counterexample: on the claim's own instance, `Marshal` does not
produce the claimed line — the source template has a stray space before
the colon after `"IP"`. -/
theorem marshal_claim_cex :
    HopResp.marshal hopEx ≠
      "\x7b \"Id\": 5, \"Hop\": \"r.x\", \"IP\": \"1.2.3.4\", \"Elapsed\": 12.345, \"Holder\": \"EXAMPLE AS\", \"ASN\": 64500, \"Last\": false \x7d" := by
  decide

/-- C7 amended: `Marshal` yields exactly the claimed JSON line except that
the `IP` key is rendered as `"IP" : ` (space before the colon), with
`Elapsed: 12.345` and `ASN: 64500` as claimed. -/
theorem marshal_exact :
    HopResp.marshal hopEx =
      "\x7b \"Id\": 5, \"Hop\": \"r.x\", \"IP\" : \"1.2.3.4\", \"Elapsed\": 12.345, \"Holder\": \"EXAMPLE AS\", \"ASN\": 64500, \"Last\": false \x7d" := by
  decide

/-! ## Trace.Recv (`trace.go` lines 297-347), IPv4 branch -/

/-- Parsed ICMP response as consumed by `Trace.Recv`.  Modelled from the
spec (section 4.3): the parser `icmpV4RespParser` lives in a sibling file
of the package that is not under `src/`; `Recv` reads the fields
`resp.typ`, `resp.id`, `resp.seq`, `resp.ip.dst` and `resp.ip.id`. -/
structure ICMPResp where
  typ : Int
  id : Int
  seq : Int
  ipDst : String
  ipId : Int
deriving DecidableEq, Repr, Inhabited

/-- Modelled from the spec: the standard ICMPv4 echo-reply type (0). -/
def IPv4ICMPTypeEchoReply : Int := 0

/-- Modelled from the spec: the standard ICMPv4 time-exceeded type (11). -/
def IPv4ICMPTypeTimeExceeded : Int := 11

/-- Modelled from the spec: the standard ICMPv4 destination-unreachable type (3). -/
def IPv4ICMPTypeDestUnreachable : Int := 3

/-- The filter applied by `Trace.Recv` to each received IPv4 frame
(`trace.go` lines 321-336): `wID`, `wSeq`, `wDst`, `wV4` computed exactly
as in the source, and the frame is skipped when
`(i.icmp && wSeq) || (!i.icmp && (wDst || wID || wV4))`. -/
def Trace.recvSkipV4 (icmpMode : Bool) (id seq : Int) (dstIP : String) (r : ICMPResp) : Bool :=
  let wID := (r.typ == IPv4ICMPTypeEchoReply) && (id != r.id)
  let wSeq := seq != r.seq
  let wDst := r.ipDst != dstIP
  let wV4 := (id != r.ipId) && (r.ipId != 0)
  (icmpMode && wSeq) || (!icmpMode && (wDst || wID || wV4))

/-- The receive loop of `Trace.Recv` over the frames arriving while the
wait window is open: skipped frames are consumed, the first accepted frame
is returned with a nil error (none when the window closes first). -/
def Trace.recvFirstV4 (icmpMode : Bool) (id seq : Int) (dstIP : String) :
    List ICMPResp → Option ICMPResp
  | [] => none
  | r :: rest =>
      if Trace.recvSkipV4 icmpMode id seq dstIP r then
        Trace.recvFirstV4 icmpMode id seq dstIP rest
      else some r

/-- Modelled from the spec (section 4.3, ICMP-mode correlation rule):
accept iff an echo reply matches both `(id, seq)`, or a time-exceeded /
unreachable message carries the expected `seq`. -/
def claimAcceptICMP (id seq : Int) (r : ICMPResp) : Bool :=
  ((r.typ == IPv4ICMPTypeEchoReply) && (r.id == id) && (r.seq == seq)) ||
  (((r.typ == IPv4ICMPTypeTimeExceeded) || (r.typ == IPv4ICMPTypeDestUnreachable)) &&
    (r.seq == seq))

/-- In ICMP mode the code's skip test collapses to a sequence-number test. -/
theorem recvSkip_icmp_eq (id seq : Int) (dstIP : String) (r : ICMPResp) :
    Trace.recvSkipV4 true id seq dstIP r = !(r.seq == seq) := by
  simp [Trace.recvSkipV4, bne, eq_comm]

/-- C2 amended: in ICMP mode `Recv` accepts a frame if and only if its
parsed `seq` equals the expected one — the message type, the `id` and the
destination address are not consulted at all; while the window is open
every frame with a different `seq` is skipped, so the loop returns exactly
the first frame whose `seq` matches. -/
theorem Trace.recv_icmp_accept (id seq : Int) (dstIP : String) (r : ICMPResp)
    (frames : List ICMPResp) :
    (Trace.recvSkipV4 true id seq dstIP r = false ↔ r.seq = seq) ∧
    Trace.recvFirstV4 true id seq dstIP frames = frames.find? (fun f => f.seq == seq) := by
  constructor
  · simp [recvSkip_icmp_eq]
  · induction frames with
    | nil => rfl
    | cons f fs ih =>
      by_cases h : f.seq = seq
      · simp [Trace.recvFirstV4, recvSkip_icmp_eq, h]
      · simp [Trace.recvFirstV4, recvSkip_icmp_eq, h, ih]

/-- C2 counterexample: an echo reply whose `id` (999) does not match the
outstanding probe's `id` (7) but whose `seq` matches is *accepted* by the
code, while the claimed rule rejects it. -/
theorem Trace.recv_icmp_cex :
    Trace.recvSkipV4 true 7 1 "192.0.2.1"
      { typ := 0, id := 999, seq := 1, ipDst := "192.0.2.1", ipId := 0 } = false ∧
    claimAcceptICMP 7 1
      { typ := 0, id := 999, seq := 1, ipDst := "192.0.2.1", ipId := 0 } = false := by
  decide

/-! ## Trace.NextHop (`trace.go` lines 350-394) -/

/-- Function `Trace.NextHop` with its effects made explicit: `sendErr` is
the error from `Send` (nil = `none`), `recvSrc` the source address of the
accepted reply from `Recv` (`none` when `Recv` returned an error, i.e.
timeout or no matching reply in the window), `lookup` the reverse-DNS
oracle, `elapsedMs` the measured round-trip time, `resolvedIps` the
target's `i.ips` as strings.  All three return paths build the `HopResp`
with the exact positional literals of the source. -/
def Trace.nextHop (resolvedIps : List String) (resolve : Bool)
    (sendErr : Option String) (recvSrc : Option String)
    (lookup : String → List String) (elapsedMs : ℚ) (hop : Nat) : HopResp :=
  match sendErr with
  | some e =>
      { num := hop, hop := "", ip := "", elapsed := 0, last := false, err := some e,
        whois := { holder := "", asn := 0 } }
  | none =>
    match recvSrc with
    | none =>
        { num := hop, hop := "", ip := "", elapsed := 0, last := false, err := none,
          whois := { holder := "", asn := 0 } }
    | some src =>
        let name := if resolve then lookup src else []
        let base : HopResp :=
          match name with
          | n :: _ =>
              { num := hop, hop := n, ip := src, elapsed := elapsedMs, last := false,
                err := none, whois := { holder := "", asn := 0 } }
          | [] =>
              { num := hop, hop := "", ip := src, elapsed := elapsedMs, last := false,
                err := none, whois := { holder := "", asn := 0 } }
        if resolvedIps.contains src then { base with last := true } else base

/-- C3: when `Send` succeeded but `Recv` failed (timeout / nothing matched),
`NextHop` returns `HopResp{hop, "", "", 0, false, nil, Whois{}}` — empty
ip, zero elapsed, `last = false` and a nil `err`, so the scan continues;
on that result `elapsed = 0` holds exactly when `ip = ""`. -/
theorem Trace.nextHop_recv_failure (resolvedIps : List String) (resolve : Bool)
    (lookup : String → List String) (elapsedMs : ℚ) (hop : Nat) :
    Trace.nextHop resolvedIps resolve none none lookup elapsedMs hop =
      { num := hop, hop := "", ip := "", elapsed := 0, last := false, err := none,
        whois := { holder := "", asn := 0 } } ∧
    ((Trace.nextHop resolvedIps resolve none none lookup elapsedMs hop).elapsed = 0 ↔
      (Trace.nextHop resolvedIps resolve none none lookup elapsedMs hop).ip = "") := by
  constructor
  · rfl
  · simp [Trace.nextHop]

/-! ## Trace.Run (`trace.go` lines 397-437) -/

/-- The retry loop inside `Trace.Run`: `nh` is `NextHop` at the current hop
as a function of the retry index; each result is appended, and the loop
breaks after the first result carrying a non-nil `err`. -/
def runBatchGo (nh : Nat → HopResp) : Nat → Nat → List HopResp
  | _, 0 => []
  | n, k + 1 =>
    let hop := nh n
    hop :: (if hop.err.isSome then [] else runBatchGo nh (n + 1) k)

/-- One batch of up-to-`retry` probes at a fixed TTL. -/
def runBatch (nh : Nat → HopResp) (retry : Nat) : List HopResp :=
  runBatchGo nh 0 retry

/-- Per-ip value of `addWhois`'s lookup map: the empty ip is skipped and a
`whois` error is swallowed, both leaving the zero value. -/
def whoisCacheVal (wh : String → Option Whois) (ip : String) : Whois :=
  if ip = "" then { holder := "", asn := 0 } else
    match wh ip with
    | some w => w
    | none => { holder := "", asn := 0 }

/-- Method `Trace.addWhois` (`trace.go` lines 649-677): every result's
`whois` field is overwritten with the looked-up value for its ip. -/
def Trace.addWhois (wh : String → Option Whois) (R : List HopResp) : List HopResp :=
  R.map (fun r => { r with whois := whoisCacheVal wh r.ip })

/-- One iteration of the hop loop of `Trace.Run`: the batch of retries at
hop `h`, enriched by `addWhois` when `i.ripe` is set. -/
def runStep (nh : Nat → Nat → HopResp) (wh : String → Option Whois) (ripe : Bool)
    (retry : Nat) (h : Nat) : List HopResp :=
  let b0 := runBatch (nh h) retry
  if ripe then Trace.addWhois wh b0 else b0

/-- The hop loop of `Trace.Run`, at hop `h` with `rem` hops left before
`maxTTL` is exhausted: one batch per hop, emitted, and the loop broken
after a batch containing a `last` or `err` result. -/
def Trace.runGo (nh : Nat → Nat → HopResp) (wh : String → Option Whois) (ripe : Bool)
    (retry : Nat) : Nat → Nat → List (List HopResp)
  | _, 0 => []
  | h, rem + 1 =>
    let b := runStep nh wh ripe retry h
    b :: (if b.any (fun R => R.last || R.err.isSome) then []
          else Trace.runGo nh wh ripe retry (h + 1) rem)

/-- Method `Trace.Run` as the list of batches sent on its result channel:
`nh h n` abstracts `NextHop(h)` at retry index `n` and `wh` the RIPE
whois client. -/
def Trace.run (nh : Nat → Nat → HopResp) (wh : String → Option Whois) (ripe : Bool)
    (maxTTL retry : Nat) : List (List HopResp) :=
  Trace.runGo nh wh ripe retry 1 maxTTL

theorem cons_getLastD (a d : HopResp) (l : List HopResp) (h : l ≠ []) :
    (a :: l).getLastD d = l.getLastD d := by
  cases l with
  | nil => exact absurd rfl h
  | cons x xs => rfl

theorem runBatchGo_shape (nh : Nat → HopResp) (k n : Nat) :
    (∀ y ∈ (runBatchGo nh n k).dropLast, y.err = none) ∧
    ((runBatchGo nh n k).length = k ∨
      ((runBatchGo nh n k).length ≤ k ∧ runBatchGo nh n k ≠ [] ∧
        ((runBatchGo nh n k).getLastD default).err.isSome = true)) := by
  induction k generalizing n with
  | zero => exact ⟨by intro y hy; simp [runBatchGo] at hy, Or.inl rfl⟩
  | succ k ih =>
    by_cases he : (nh n).err.isSome = true
    · have hb : runBatchGo nh n (k + 1) = [nh n] := by
        simp [runBatchGo, he]
      rw [hb]
      refine ⟨?_, Or.inr ⟨?_, ?_, ?_⟩⟩
      · intro y hy; simp at hy
      · simp only [List.length_cons, List.length_nil]; omega
      · simp
      · exact he
    · have hb : runBatchGo nh n (k + 1) = nh n :: runBatchGo nh (n + 1) k := by
        simp [runBatchGo, he]
      obtain ⟨ih1, ih2⟩ := ih (n + 1)
      rw [hb]
      have herr : (nh n).err = none := Option.not_isSome_iff_eq_none.mp (by simpa using he)
      by_cases hr : runBatchGo nh (n + 1) k = []
      · refine ⟨?_, Or.inl ?_⟩
        · intro y hy
          rw [hr] at hy
          simp at hy
        · rcases ih2 with h0 | ⟨_, hne, _⟩
          · rw [hr] at h0 ⊢
            simp only [List.length_nil] at h0
            simp only [List.length_cons, List.length_nil]
            omega
          · exact absurd hr hne
      · constructor
        · intro y hy
          rw [List.dropLast_cons_of_ne_nil hr] at hy
          rcases List.mem_cons.mp hy with hy1 | hy1
          · rw [hy1]; exact herr
          · exact ih1 y hy1
        · rcases ih2 with h1 | ⟨h1, h2, h3⟩
          · exact Or.inl (by simp only [List.length_cons, h1])
          · refine Or.inr ⟨?_, by simp, ?_⟩
            · simp only [List.length_cons]; omega
            · rw [cons_getLastD _ _ _ hr]; exact h3

theorem getLastD_map_hr (f : HopResp → HopResp) (l : List HopResp) (d : HopResp) :
    (l.map f).getLastD (f d) = f (l.getLastD d) := by
  induction l generalizing d with
  | nil => rfl
  | cons a t ih =>
    simp only [List.map_cons, List.getLastD_cons]
    exact ih a

theorem getLastD_map_ne_nil (f : HopResp → HopResp) (b : List HopResp) (d1 d2 : HopResp)
    (h : b ≠ []) : (b.map f).getLastD d1 = f (b.getLastD d2) := by
  cases b with
  | nil => exact absurd rfl h
  | cons a t =>
    simp only [List.map_cons, List.getLastD_cons]
    exact getLastD_map_hr f t a

theorem dropLast_map_hr (f : HopResp → HopResp) (l : List HopResp) :
    (l.map f).dropLast = l.dropLast.map f :=
  (List.map_dropLast f l).symm

theorem runStep_shape (nh : Nat → Nat → HopResp) (wh : String → Option Whois) (ripe : Bool)
    (retry h : Nat) :
    (∀ y ∈ (runStep nh wh ripe retry h).dropLast, y.err = none) ∧
    ((runStep nh wh ripe retry h).length = retry ∨
      ((runStep nh wh ripe retry h).length ≤ retry ∧ runStep nh wh ripe retry h ≠ [] ∧
        ((runStep nh wh ripe retry h).getLastD default).err.isSome = true)) := by
  obtain ⟨s1, s2⟩ := runBatchGo_shape (nh h) retry 0
  have hb : runBatch (nh h) retry = runBatchGo (nh h) 0 retry := rfl
  cases hripe : ripe with
  | false =>
    have : runStep nh wh false retry h = runBatch (nh h) retry := by simp [runStep]
    rw [this, hb]
    exact ⟨s1, s2⟩
  | true =>
    have hs : runStep nh wh true retry h = Trace.addWhois wh (runBatch (nh h) retry) := by
      simp [runStep]
    rw [hs, hb]
    set b0 := runBatchGo (nh h) 0 retry with hb0
    constructor
    · intro y hy
      rw [Trace.addWhois, dropLast_map_hr] at hy
      obtain ⟨s, hs1, hs2⟩ := List.mem_map.mp hy
      rw [← hs2]
      exact s1 s hs1
    · rcases s2 with h1 | ⟨h1, h2, h3⟩
      · exact Or.inl (by simp [Trace.addWhois, h1])
      · refine Or.inr ⟨by simp [Trace.addWhois]; omega, by simp [Trace.addWhois, h2], ?_⟩
        rw [Trace.addWhois, getLastD_map_ne_nil _ _ _ default h2]
        exact h3

theorem runBatchGo_num (nh : Nat → HopResp) (hv : Nat) (hn : ∀ n, (nh n).num = hv) :
    ∀ k n r, r ∈ runBatchGo nh n k → r.num = hv := by
  intro k
  induction k with
  | zero => intro n r hr; simp [runBatchGo] at hr
  | succ k ih =>
    intro n r hr
    by_cases he : (nh n).err.isSome = true
    · simp [runBatchGo, he] at hr
      rw [hr]; exact hn n
    · simp [runBatchGo, he] at hr
      rcases hr with hr | hr
      · rw [hr]; exact hn n
      · exact ih (n + 1) r hr

theorem runStep_num (nh : Nat → Nat → HopResp) (wh : String → Option Whois) (ripe : Bool)
    (retry h : Nat) (hn : ∀ n, (nh h n).num = h) :
    ∀ r ∈ runStep nh wh ripe retry h, r.num = h := by
  intro r hr
  cases hripe : ripe with
  | false =>
    rw [hripe] at hr
    simp only [runStep, Bool.false_eq_true, if_false] at hr
    exact runBatchGo_num (nh h) h hn retry 0 r hr
  | true =>
    rw [hripe] at hr
    simp only [runStep, if_true, Trace.addWhois] at hr
    obtain ⟨s, hs1, hs2⟩ := List.mem_map.mp hr
    rw [← hs2]
    exact runBatchGo_num (nh h) h hn retry 0 s hs1

theorem any_bad_false {b : List HopResp}
    (h : b.any (fun R => R.last || R.err.isSome) = false) :
    ∀ r ∈ b, r.last = false ∧ r.err = none := by
  intro r hr
  have hp := List.any_eq_false.mp h r hr
  constructor
  · cases hl : r.last
    · rfl
    · exact absurd (by simp [hl]) hp
  · cases he : r.err
    · rfl
    · exact absurd (by simp [he]) hp

theorem runGo_mem (nh : Nat → Nat → HopResp) (wh : String → Option Whois) (ripe : Bool)
    (retry : Nat) :
    ∀ rem h b, b ∈ Trace.runGo nh wh ripe retry h rem →
      ∃ h2, b = runStep nh wh ripe retry h2 := by
  intro rem
  induction rem with
  | zero => intro h b hb; simp [Trace.runGo] at hb
  | succ rem ih =>
    intro h b hb
    simp only [Trace.runGo] at hb
    rcases List.mem_cons.mp hb with hb1 | hb1
    · exact ⟨h, hb1⟩
    · split at hb1
      · simp at hb1
      · exact ih (h + 1) b hb1

theorem runGo_length (nh : Nat → Nat → HopResp) (wh : String → Option Whois) (ripe : Bool)
    (retry : Nat) :
    ∀ rem h, (Trace.runGo nh wh ripe retry h rem).length ≤ rem := by
  intro rem
  induction rem with
  | zero => intro h; simp [Trace.runGo]
  | succ rem ih =>
    intro h
    simp only [Trace.runGo, List.length_cons]
    split
    · simp only [List.length_nil]; omega
    · exact Nat.succ_le_succ (ih (h + 1))

theorem runGo_clean (nh : Nat → Nat → HopResp) (wh : String → Option Whois) (ripe : Bool)
    (retry : Nat) :
    ∀ rem h i, i + 1 < (Trace.runGo nh wh ripe retry h rem).length →
      ∀ r ∈ (Trace.runGo nh wh ripe retry h rem).getD i [],
        r.last = false ∧ r.err = none := by
  intro rem
  induction rem with
  | zero => intro h i hi; simp [Trace.runGo] at hi
  | succ rem ih =>
    intro h i hi
    simp only [Trace.runGo] at hi ⊢
    by_cases hbad : (runStep nh wh ripe retry h).any (fun R => R.last || R.err.isSome) = true
    · rw [if_pos hbad] at hi
      simp at hi
    · rw [if_neg hbad] at hi ⊢
      cases i with
      | zero =>
        intro r hr
        simp only [List.getD_cons_zero] at hr
        exact any_bad_false (Bool.eq_false_iff.mpr hbad) r hr
      | succ i =>
        intro r hr
        simp only [List.getD_cons_succ] at hr
        simp only [List.length_cons] at hi
        exact ih (h + 1) i (Nat.lt_of_succ_lt_succ hi) r hr

theorem runGo_num (nh : Nat → Nat → HopResp) (wh : String → Option Whois) (ripe : Bool)
    (retry : Nat) (hnum : ∀ h2 n, (nh h2 n).num = h2) :
    ∀ rem h i, i < (Trace.runGo nh wh ripe retry h rem).length →
      ∀ r ∈ (Trace.runGo nh wh ripe retry h rem).getD i [], r.num = h + i := by
  intro rem
  induction rem with
  | zero => intro h i hi; simp [Trace.runGo] at hi
  | succ rem ih =>
    intro h i hi
    simp only [Trace.runGo] at hi ⊢
    cases i with
    | zero =>
      intro r hr
      simp only [List.getD_cons_zero] at hr
      simpa using runStep_num nh wh ripe retry h (hnum h) r hr
    | succ i =>
      intro r hr
      simp only [List.getD_cons_succ] at hr
      simp only [List.length_cons] at hi
      by_cases hbad : (runStep nh wh ripe retry h).any (fun R => R.last || R.err.isSome) = true
      · rw [if_pos hbad] at hr hi
        simp only [List.length_nil] at hi
        omega
      · rw [if_neg hbad] at hr hi
        have := ih (h + 1) i (Nat.lt_of_succ_lt_succ hi) r hr
        omega

/-- C1: in a single-pass `Run` with retry count `retry`, (a) every emitted
batch has exactly `retry` entries unless it was cut short, in which case
it is nonempty, no longer than `retry`, ends in the single result carrying
a non-nil `err`, and all earlier entries have nil `err`; (b) every batch
other than the final one contains no `last` and no `err` result (so
nothing follows a batch containing one); (c) at most `maxTTL` batches are
emitted; (d) batch `i` holds hop number `i + 1`, increasing. -/
theorem Trace.run_batches (nh : Nat → Nat → HopResp) (wh : String → Option Whois)
    (ripe : Bool) (maxTTL retry : Nat) (hnum : ∀ h n, (nh h n).num = h) :
    (∀ b ∈ Trace.run nh wh ripe maxTTL retry,
      (∀ y ∈ b.dropLast, y.err = none) ∧
      (b.length = retry ∨ (b.length ≤ retry ∧ b ≠ [] ∧
        (b.getLastD default).err.isSome = true))) ∧
    (∀ i, i + 1 < (Trace.run nh wh ripe maxTTL retry).length →
      ∀ r ∈ (Trace.run nh wh ripe maxTTL retry).getD i [],
        r.last = false ∧ r.err = none) ∧
    (Trace.run nh wh ripe maxTTL retry).length ≤ maxTTL ∧
    (∀ i, i < (Trace.run nh wh ripe maxTTL retry).length →
      ∀ r ∈ (Trace.run nh wh ripe maxTTL retry).getD i [], r.num = i + 1) := by
  refine ⟨?_, ?_, ?_, ?_⟩
  · intro b hb
    obtain ⟨h2, rfl⟩ := runGo_mem nh wh ripe retry maxTTL 1 b hb
    exact runStep_shape nh wh ripe retry h2
  · exact fun i => runGo_clean nh wh ripe retry maxTTL 1 i
  · exact runGo_length nh wh ripe retry maxTTL 1
  · intro i hi r hr
    have := runGo_num nh wh ripe retry hnum maxTTL 1 i hi r hr
    omega

/-- Probe oracle for the C1 witness: every attempt succeeds, the target is
reached at hop 2. -/
def nhW : Nat → Nat → HopResp := fun h _ =>
  { num := h, hop := "", ip := "10.0.0.9", elapsed := 1, last := h == 2, err := none,
    whois := { holder := "", asn := 0 } }

/-- Witness for C1 at a concrete oracle, `maxTTL = 5`, `retry = 3`. -/
theorem Trace.run_batches_witness :
    (∀ h n, (nhW h n).num = h) ∧
    ((∀ b ∈ Trace.run nhW (fun _ => none) true 5 3,
      (∀ y ∈ b.dropLast, y.err = none) ∧
      (b.length = 3 ∨ (b.length ≤ 3 ∧ b ≠ [] ∧
        (b.getLastD default).err.isSome = true))) ∧
    (∀ i, i + 1 < (Trace.run nhW (fun _ => none) true 5 3).length →
      ∀ r ∈ (Trace.run nhW (fun _ => none) true 5 3).getD i [],
        r.last = false ∧ r.err = none) ∧
    (Trace.run nhW (fun _ => none) true 5 3).length ≤ 5 ∧
    (∀ i, i < (Trace.run nhW (fun _ => none) true 5 3).length →
      ∀ r ∈ (Trace.run nhW (fun _ => none) true 5 3).getD i [], r.num = i + 1)) :=
  ⟨fun _ _ => rfl, Trace.run_batches nhW (fun _ => none) true 5 3 (fun _ _ => rfl)⟩

/-! ## whois (`trace.go` lines 687-708) -/

/-- The query-string computation at the top of `whois`: the source parses
`ip ++ "/24"` with `net.ParseCIDR` but assigns the network's string form
only when `err != nil` — i.e. only when parsing *failed*, in which case
the returned network is the nil pointer, whose `String()` is `"<nil>"`.
`parseCIDR` abstracts `net.ParseCIDR` (outside `src/`): it returns the
masked network string on success and `none` on failure. -/
def whoisQueryArg (parseCIDR : String → Option String) (ip : String) : String :=
  match parseCIDR (ip ++ "/24") with
  | some _ => ip
  | none => "<nil>"

/-- The extraction loop of `whois`: `for _, h := range asns` overwrites
`resp.holder` and `resp.asn` on every iteration, so the *last* record
wins (the zero value when the array is empty). -/
def whoisPick (asns : List (String × ℚ)) : Whois :=
  asns.foldl (fun _ h => { holder := h.1, asn := h.2 }) { holder := "", asn := 0 }

/-- Function `whois` over abstract collaborators: `parseCIDR` as above and
`client` abstracting the RIPE prefix lookup (`ripe.Prefix`, outside
`src/`), returning the decoded `"asns"` array of `{holder, asn}` records
or `none` when the `"data"` member is absent. -/
def whois (parseCIDR : String → Option String) (client : String → Option (List (String × ℚ)))
    (ip : String) : Option Whois :=
  match client (whoisQueryArg parseCIDR ip) with
  | none => none
  | some asns => some (whoisPick asns)

/-- Concrete `net.ParseCIDR` behaviour on the C8 failing input: parsing
`"1.2.3.4/24"` succeeds with the `/24` network `1.2.3.0/24`. -/
def parseCIDREx : String → Option String :=
  fun s => if s = "1.2.3.4/24" then some "1.2.3.0/24" else none

/-- C8: the inverted error check keeps the *un-widened* router IP as the
query (the `/24` network string would only be used after a parse failure,
as `"<nil>"`), and the extraction loop keeps the *last* record of a
non-empty `"asns"` array rather than the first. -/
theorem whois_bug_eval :
    whoisQueryArg parseCIDREx "1.2.3.4" = "1.2.3.4" ∧
    whoisQueryArg parseCIDREx "1.2.3.4" ≠ "1.2.3.0/24" ∧
    whois parseCIDREx (fun _ => some [("AS-A", 64496), ("AS-B", 64497)]) "1.2.3.4"
      = some { holder := "AS-B", asn := 64497 } ∧
    whois parseCIDREx (fun _ => some [("AS-A", 64496), ("AS-B", 64497)]) "1.2.3.4"
      ≠ some { holder := "AS-A", asn := 64496 } := by
  refine ⟨rfl, by decide, rfl, by decide⟩

/-! ## Trace.MRun (`trace.go` lines 440-490) -/

/-- The per-hop enrichment at the top of the `MRun` loop body: if the shared
ASN cache holds an entry for the hop's ip, the result's `whois` field is
replaced; otherwise the result is emitted unchanged (a lookup for a new ip
is only *scheduled* asynchronously).  `cache cycle h ip` abstracts the
cache contents at the moment hop `h` of the given cycle reads it. -/
def mrunHop (nh : Nat → Nat → HopResp) (cache : Nat → Nat → String → Option Whois)
    (cycle h : Nat) : HopResp :=
  match cache cycle h (nh cycle h).ip with
  | some w => { nh cycle h with whois := w }
  | none => nh cycle h

/-- The inner hop loop of `Trace.MRun` (`for h := 1; h <= maxTTL; h++`):
each hop is emitted, and when a `last` result arrives while `maxTTL`
still equals the configured `i.maxTTL`, `maxTTL` shrinks to the current
hop.  Returns the emissions and the final `maxTTL`.  Structural fuel:
`m + 1` at entry (`h = 1`) is exactly the number of iterations the Go
loop can perform, since `maxTTL` never grows. -/
def Trace.mRunInner (nh : Nat → Nat → HopResp) (cache : Nat → Nat → String → Option Whois)
    (cycle iMaxTTL : Nat) : Nat → Nat → Nat → List HopResp × Nat
  | 0, _, m => ([], m)
  | fuel + 1, h, m =>
    if m < h then ([], m)
    else
      let hop := mrunHop nh cache cycle h
      let m2 := if hop.last && (m == iMaxTTL) then h else m
      let rest := Trace.mRunInner nh cache cycle iMaxTTL fuel (h + 1) m2
      (hop :: rest.1, rest.2)

/-- The cycle loop of `Trace.MRun`: starting at `cycle` with current
`maxTTL` value `m` and `rem` full cycles left (the source breaks once
`count >= i.count` for a positive `i.count`). -/
def Trace.mRunGo (nh : Nat → Nat → HopResp) (cache : Nat → Nat → String → Option Whois)
    (iMaxTTL : Nat) : Nat → Nat → Nat → List HopResp
  | _, _, 0 => []
  | cycle, m, rem + 1 =>
    let step := Trace.mRunInner nh cache cycle iMaxTTL (m + 1) 1 m
    step.1 ++ Trace.mRunGo nh cache iMaxTTL (cycle + 1) step.2 rem

/-- Method `Trace.MRun` as the stream of hop results it emits over `count`
complete cycles (for `i.count ≤ 0` the Go loop never terminates; `count`
here is a positive `i.count`). -/
def Trace.mRun (nh : Nat → Nat → HopResp) (cache : Nat → Nat → String → Option Whois)
    (iMaxTTL count : Nat) : List HopResp :=
  Trace.mRunGo nh cache iMaxTTL 1 iMaxTTL count

theorem mrunHop_num (nh : Nat → Nat → HopResp) (cache : Nat → Nat → String → Option Whois)
    (cycle h : Nat) : (mrunHop nh cache cycle h).num = (nh cycle h).num := by
  unfold mrunHop
  cases cache cycle h (nh cycle h).ip <;> rfl

theorem mrunHop_last (nh : Nat → Nat → HopResp) (cache : Nat → Nat → String → Option Whois)
    (cycle h : Nat) : (mrunHop nh cache cycle h).last = (nh cycle h).last := by
  unfold mrunHop
  cases cache cycle h (nh cycle h).ip <;> rfl

theorem mRunInner_stop (nh : Nat → Nat → HopResp) (cache : Nat → Nat → String → Option Whois)
    (cycle iMaxTTL : Nat) :
    ∀ fuel h m, m < h → Trace.mRunInner nh cache cycle iMaxTTL fuel h m = ([], m) := by
  intro fuel h m hlt
  cases fuel with
  | zero => rfl
  | succ fuel => simp [Trace.mRunInner, if_pos hlt]

theorem mRunInner_bound (nh : Nat → Nat → HopResp) (cache : Nat → Nat → String → Option Whois)
    (cycle iMaxTTL : Nat) (hnum : ∀ c h, (nh c h).num = h) :
    ∀ fuel h m,
      (∀ r ∈ (Trace.mRunInner nh cache cycle iMaxTTL fuel h m).1, r.num ≤ m) ∧
      (Trace.mRunInner nh cache cycle iMaxTTL fuel h m).2 ≤ m := by
  intro fuel
  induction fuel with
  | zero => intro h m; exact ⟨by intro r hr; simp [Trace.mRunInner] at hr, Nat.le_refl m⟩
  | succ fuel ih =>
    intro h m
    by_cases hlt : m < h
    · rw [mRunInner_stop nh cache cycle iMaxTTL _ h m hlt]
      exact ⟨by intro r hr; simp at hr, Nat.le_refl m⟩
    · have hexp : Trace.mRunInner nh cache cycle iMaxTTL (fuel + 1) h m =
        (mrunHop nh cache cycle h ::
          (Trace.mRunInner nh cache cycle iMaxTTL fuel (h + 1)
            (if (mrunHop nh cache cycle h).last && (m == iMaxTTL) then h else m)).1,
         (Trace.mRunInner nh cache cycle iMaxTTL fuel (h + 1)
            (if (mrunHop nh cache cycle h).last && (m == iMaxTTL) then h else m)).2) := by
        simp [Trace.mRunInner, if_neg hlt]
      rw [hexp]
      have hm2 : (if (mrunHop nh cache cycle h).last && (m == iMaxTTL) then h else m) ≤ m := by
        split
        · omega
        · exact Nat.le_refl m
      obtain ⟨ih1, ih2⟩ := ih (h + 1)
        (if (mrunHop nh cache cycle h).last && (m == iMaxTTL) then h else m)
      constructor
      · intro r hr
        rcases List.mem_cons.mp hr with hr1 | hr1
        · rw [hr1, mrunHop_num, hnum]
          omega
        · exact Nat.le_trans (ih1 r hr1) hm2
      · exact Nat.le_trans ih2 hm2

theorem mRunInner_no_last (nh : Nat → Nat → HopResp) (cache : Nat → Nat → String → Option Whois)
    (cycle iMaxTTL : Nat) :
    ∀ fuel h m, (∀ r ∈ (Trace.mRunInner nh cache cycle iMaxTTL fuel h m).1, r.last = false) →
      (Trace.mRunInner nh cache cycle iMaxTTL fuel h m).2 = m := by
  intro fuel
  induction fuel with
  | zero => intro h m _; rfl
  | succ fuel ih =>
    intro h m hno
    by_cases hlt : m < h
    · rw [mRunInner_stop nh cache cycle iMaxTTL _ h m hlt]
    · have hexp : Trace.mRunInner nh cache cycle iMaxTTL (fuel + 1) h m =
        (mrunHop nh cache cycle h ::
          (Trace.mRunInner nh cache cycle iMaxTTL fuel (h + 1)
            (if (mrunHop nh cache cycle h).last && (m == iMaxTTL) then h else m)).1,
         (Trace.mRunInner nh cache cycle iMaxTTL fuel (h + 1)
            (if (mrunHop nh cache cycle h).last && (m == iMaxTTL) then h else m)).2) := by
        simp [Trace.mRunInner, if_neg hlt]
      rw [hexp] at hno ⊢
      have hhop : (mrunHop nh cache cycle h).last = false :=
        hno (mrunHop nh cache cycle h) (List.mem_cons_self _ _)
      rw [hhop] at hno ⊢
      simp only [Bool.false_and, if_false] at hno ⊢
      exact ih (h + 1) m (fun r hr => hno r (List.mem_cons_of_mem _ hr))

theorem mRunInner_first_last (nh : Nat → Nat → HopResp)
    (cache : Nat → Nat → String → Option Whois) (cycle iMaxTTL : Nat)
    (hnum : ∀ c h, (nh c h).num = h) :
    ∀ fuel h pre x suf,
      (Trace.mRunInner nh cache cycle iMaxTTL fuel h iMaxTTL).1 = pre ++ x :: suf →
      (∀ y ∈ pre, y.last = false) → x.last = true →
      suf = [] ∧ (Trace.mRunInner nh cache cycle iMaxTTL fuel h iMaxTTL).2 = x.num := by
  intro fuel
  induction fuel with
  | zero =>
    intro h pre x suf heq
    cases pre <;> simp [Trace.mRunInner] at heq
  | succ fuel ih =>
    intro h pre x suf heq hpre hx
    by_cases hlt : iMaxTTL < h
    · rw [mRunInner_stop nh cache cycle iMaxTTL _ h iMaxTTL hlt] at heq
      cases pre <;> simp at heq
    · have hexp1 : (Trace.mRunInner nh cache cycle iMaxTTL (fuel + 1) h iMaxTTL).1 =
          mrunHop nh cache cycle h ::
            (Trace.mRunInner nh cache cycle iMaxTTL fuel (h + 1)
              (if (mrunHop nh cache cycle h).last && (iMaxTTL == iMaxTTL) then h
               else iMaxTTL)).1 := by
        simp [Trace.mRunInner, if_neg hlt]
      have hexp2 : (Trace.mRunInner nh cache cycle iMaxTTL (fuel + 1) h iMaxTTL).2 =
          (Trace.mRunInner nh cache cycle iMaxTTL fuel (h + 1)
              (if (mrunHop nh cache cycle h).last && (iMaxTTL == iMaxTTL) then h
               else iMaxTTL)).2 := by
        simp [Trace.mRunInner, if_neg hlt]
      rw [hexp1] at heq
      cases pre with
      | nil =>
        rw [List.nil_append] at heq
        have hhop : mrunHop nh cache cycle h = x := ((List.cons.injEq _ _ _ _).mp heq).1
        have hlast : (mrunHop nh cache cycle h).last = true := by rw [hhop]; exact hx
        have hm2 : (if (mrunHop nh cache cycle h).last && (iMaxTTL == iMaxTTL) then h
            else iMaxTTL) = h := by rw [hlast]; simp
        rw [hm2] at heq
        rw [mRunInner_stop nh cache cycle iMaxTTL fuel (h + 1) h (Nat.lt_succ_self h)] at heq
        have hsuf : suf = [] := ((List.cons.injEq _ _ _ _).mp heq).2.symm
        refine ⟨hsuf, ?_⟩
        rw [hexp2, hm2,
          mRunInner_stop nh cache cycle iMaxTTL fuel (h + 1) h (Nat.lt_succ_self h)]
        rw [← hhop, mrunHop_num, hnum]
      | cons p pre2 =>
        rw [List.cons_append] at heq
        have hphop : mrunHop nh cache cycle h = p := ((List.cons.injEq _ _ _ _).mp heq).1
        have hrest : (Trace.mRunInner nh cache cycle iMaxTTL fuel (h + 1)
            (if (mrunHop nh cache cycle h).last && (iMaxTTL == iMaxTTL) then h
             else iMaxTTL)).1 = pre2 ++ x :: suf := ((List.cons.injEq _ _ _ _).mp heq).2
        have hp : (mrunHop nh cache cycle h).last = false := by
          rw [hphop]
          exact hpre p (List.mem_cons_self _ _)
        have hm2 : (if (mrunHop nh cache cycle h).last && (iMaxTTL == iMaxTTL) then h
            else iMaxTTL) = iMaxTTL := by rw [hp]; simp
        rw [hm2] at hrest
        obtain ⟨hsuf, hsnd⟩ := ih (h + 1) pre2 x suf hrest
          (fun y hy => hpre y (List.mem_cons_of_mem _ hy)) hx
        exact ⟨hsuf, by rw [hexp2, hm2]; exact hsnd⟩

theorem mRunGo_bound (nh : Nat → Nat → HopResp) (cache : Nat → Nat → String → Option Whois)
    (iMaxTTL : Nat) (hnum : ∀ c h, (nh c h).num = h) :
    ∀ rem cycle m B, m ≤ B →
      ∀ r ∈ Trace.mRunGo nh cache iMaxTTL cycle m rem, r.num ≤ B := by
  intro rem
  induction rem with
  | zero => intro cycle m B _ r hr; simp [Trace.mRunGo] at hr
  | succ rem ih =>
    intro cycle m B hB r hr
    simp only [Trace.mRunGo] at hr
    rcases List.mem_append.mp hr with hr1 | hr1
    · exact Nat.le_trans
        ((mRunInner_bound nh cache cycle iMaxTTL hnum (m + 1) 1 m).1 r hr1) hB
    · exact ih (cycle + 1) _ B
        (Nat.le_trans (mRunInner_bound nh cache cycle iMaxTTL hnum (m + 1) 1 m).2 hB) r hr1

theorem mRunGo_first_last (nh : Nat → Nat → HopResp)
    (cache : Nat → Nat → String → Option Whois) (iMaxTTL : Nat)
    (hnum : ∀ c h, (nh c h).num = h) :
    ∀ rem cycle pre x suf,
      Trace.mRunGo nh cache iMaxTTL cycle iMaxTTL rem = pre ++ x :: suf →
      (∀ y ∈ pre, y.last = false) → x.last = true →
      ∀ y ∈ suf, y.num ≤ x.num := by
  intro rem
  induction rem with
  | zero =>
    intro cycle pre x suf heq
    cases pre <;> simp [Trace.mRunGo] at heq
  | succ rem ih =>
    intro cycle pre x suf heq hpre hx
    simp only [Trace.mRunGo] at heq
    rcases List.append_eq_append_iff.mp heq with ⟨a2, hpre2, htail⟩ | ⟨c2, hout, hxs⟩
    · have hout_no : ∀ y ∈ (Trace.mRunInner nh cache cycle iMaxTTL (iMaxTTL + 1)
          1 iMaxTTL).1, y.last = false := by
        intro y hy
        exact hpre y (by rw [hpre2]; exact List.mem_append_left _ hy)
      have hsnd := mRunInner_no_last nh cache cycle iMaxTTL (iMaxTTL + 1) 1 iMaxTTL hout_no
      rw [hsnd] at htail
      exact ih (cycle + 1) a2 x suf htail
        (fun y hy => hpre y (by rw [hpre2]; exact List.mem_append_right _ hy)) hx
    · cases c2 with
      | nil =>
        rw [List.append_nil] at hout
        rw [List.nil_append] at hxs
        have hout_no : ∀ y ∈ (Trace.mRunInner nh cache cycle iMaxTTL (iMaxTTL + 1)
            1 iMaxTTL).1, y.last = false := by
          intro y hy
          exact hpre y (by rw [← hout]; exact hy)
        have hsnd := mRunInner_no_last nh cache cycle iMaxTTL (iMaxTTL + 1) 1 iMaxTTL hout_no
        rw [hsnd] at hxs
        exact ih (cycle + 1) [] x suf hxs.symm (by intro y hy; simp at hy) hx
      | cons c c2t =>
        rw [List.cons_append] at hxs
        have hx_c : x = c := ((List.cons.injEq _ _ _ _).mp hxs).1
        have hsuf2 : suf = c2t ++ Trace.mRunGo nh cache iMaxTTL (cycle + 1)
            (Trace.mRunInner nh cache cycle iMaxTTL (iMaxTTL + 1) 1 iMaxTTL).2 rem :=
          ((List.cons.injEq _ _ _ _).mp hxs).2
        have hc_last : c.last = true := by rw [← hx_c]; exact hx
        obtain ⟨hc2t, hsnd⟩ := mRunInner_first_last nh cache cycle iMaxTTL hnum
          (iMaxTTL + 1) 1 pre c c2t hout hpre hc_last
        intro y hy
        rw [hsuf2, hc2t, List.nil_append] at hy
        have hb := mRunGo_bound nh cache iMaxTTL hnum rem (cycle + 1) _ c.num
          (Nat.le_of_eq hsnd) y hy
        rw [hx_c]
        exact hb

theorem runGo_last_final (nh : Nat → Nat → HopResp) (wh : String → Option Whois)
    (ripe : Bool) (retry : Nat) :
    ∀ rem h pre b suf, Trace.runGo nh wh ripe retry h rem = pre ++ b :: suf →
      b.any (fun r => r.last) = true → suf = [] := by
  intro rem
  induction rem with
  | zero =>
    intro h pre b suf heq
    cases pre <;> simp [Trace.runGo] at heq
  | succ rem ih =>
    intro h pre b suf heq hlast
    simp only [Trace.runGo] at heq
    cases pre with
    | nil =>
      rw [List.nil_append] at heq
      have hb : runStep nh wh ripe retry h = b := ((List.cons.injEq _ _ _ _).mp heq).1
      have hsuf : (if (runStep nh wh ripe retry h).any (fun R => R.last || R.err.isSome)
          then [] else Trace.runGo nh wh ripe retry (h + 1) rem) = suf :=
        ((List.cons.injEq _ _ _ _).mp heq).2
      have hbad : (runStep nh wh ripe retry h).any
          (fun R => R.last || R.err.isSome) = true := by
        rw [hb]
        obtain ⟨r, hr, hrl⟩ := List.any_eq_true.mp hlast
        exact List.any_eq_true.mpr ⟨r, hr, by simp at hrl ⊢; exact Or.inl hrl⟩
      rw [if_pos hbad] at hsuf
      exact hsuf.symm
    | cons p pre2 =>
      rw [List.cons_append] at heq
      have hrest : (if (runStep nh wh ripe retry h).any (fun R => R.last || R.err.isSome)
          then [] else Trace.runGo nh wh ripe retry (h + 1) rem) = pre2 ++ b :: suf :=
        ((List.cons.injEq _ _ _ _).mp heq).2
      by_cases hbad : (runStep nh wh ripe retry h).any
          (fun R => R.last || R.err.isSome) = true
      · rw [if_pos hbad] at hrest
        cases pre2 <;> simp at hrest
      · rw [if_neg hbad] at hrest
        exact ih (h + 1) pre2 b suf hrest hlast

/-- C4 amended: (a) in a single-pass `Run`, a batch containing a `last`
result is the final batch, and all results of one batch carry the same
hop number, so no result with a larger `num` is ever emitted afterwards;
(b) in a continuous `MRun`, only the *first* `last` sighting truncates
the scan: every result emitted after the first result with `last = true`
has `num` no larger than that result's `num` (results after a *later*
`last` sighting may still have larger `num`, see the counterexample). -/
theorem lastHop_no_larger_num (nh mh : Nat → Nat → HopResp) (wh : String → Option Whois)
    (cache : Nat → Nat → String → Option Whois) (ripe : Bool)
    (maxTTL retry iMaxTTL count : Nat)
    (hnum : ∀ h n, (nh h n).num = h) (hnumM : ∀ c h, (mh c h).num = h) :
    (∀ pre b suf, Trace.run nh wh ripe maxTTL retry = pre ++ b :: suf →
      b.any (fun r => r.last) = true →
      suf = [] ∧ ∀ r ∈ b, ∀ s ∈ b, r.num = s.num) ∧
    (∀ pre x suf, Trace.mRun mh cache iMaxTTL count = pre ++ x :: suf →
      (∀ y ∈ pre, y.last = false) → x.last = true →
      ∀ y ∈ suf, y.num ≤ x.num) := by
  constructor
  · intro pre b suf heq hlast
    constructor
    · exact runGo_last_final nh wh ripe retry maxTTL 1 pre b suf heq hlast
    · intro r hr s hs
      have hbmem : b ∈ Trace.run nh wh ripe maxTTL retry := by
        rw [heq]
        exact List.mem_append_right _ (List.mem_cons_self _ _)
      obtain ⟨h2, hbe⟩ := runGo_mem nh wh ripe retry maxTTL 1 b hbmem
      rw [hbe] at hr hs
      rw [runStep_num nh wh ripe retry h2 (hnum h2) r hr,
          runStep_num nh wh ripe retry h2 (hnum h2) s hs]
  · intro pre x suf heq hpre hx
    exact mRunGo_first_last mh cache iMaxTTL hnumM count 1 pre x suf heq hpre hx

/-- Hop-result literal used in the C4 counterexample and witness. -/
def hopCex (n : Nat) (l : Bool) : HopResp :=
  { num := n, hop := "", ip := "", elapsed := 0, last := l, err := none,
    whois := { holder := "", asn := 0 } }

/-- Probe oracle for the C4 counterexample: in cycle 1 the target answers
at hop 2 (shrinking `maxTTL` to 2); in cycle 2 the route shortens and the
target already answers at hop 1 — but the loop still probes hop 2. -/
def mhEx : Nat → Nat → HopResp := fun c h =>
  hopCex h ((c == 1 && h == 2) || (c == 2 && h == 1))

/-- Probe oracle for the Run half of the C4 witness. -/
def nhW4 : Nat → Nat → HopResp := fun h _ => hopCex h (h == 3)

/-- C4 counterexample: with `maxTTL = 3` and two cycles, `MRun` emits
`[num 1 (not last), num 2 (last), num 1 (last), num 2 (not last)]` — the
third result has `last = true` at `num = 1`, yet a result with the larger
`num = 2` follows it in the same run, because the `maxTTL == i.maxTTL`
guard lets only the first sighting shrink the hop range. -/
theorem mRun_last_cex :
    Trace.mRun mhEx (fun _ _ _ => none) 3 2 =
      [hopCex 1 false, hopCex 2 true, hopCex 1 true, hopCex 2 false] ∧
    ¬ (∀ pre x suf, Trace.mRun mhEx (fun _ _ _ => none) 3 2 = pre ++ x :: suf →
        x.last = true → ∀ y ∈ suf, y.num ≤ x.num) := by
  constructor
  · decide
  · intro hall
    have h2 := hall [hopCex 1 false, hopCex 2 true] (hopCex 1 true) [hopCex 2 false]
      (by decide) (by decide) (hopCex 2 false) (by decide)
    exact absurd h2 (by decide)

/-- Witness for C4's amended theorem at concrete oracles. -/
theorem lastHop_no_larger_num_witness :
    ((∀ h n, (nhW4 h n).num = h) ∧ (∀ c h, (mhEx c h).num = h)) ∧
    ((∀ pre b suf, Trace.run nhW4 (fun _ => none) false 4 2 = pre ++ b :: suf →
      b.any (fun r => r.last) = true →
      suf = [] ∧ ∀ r ∈ b, ∀ s ∈ b, r.num = s.num) ∧
    (∀ pre x suf, Trace.mRun mhEx (fun _ _ _ => none) 3 2 = pre ++ x :: suf →
      (∀ y ∈ pre, y.last = false) → x.last = true →
      ∀ y ∈ suf, y.num ≤ x.num)) :=
  ⟨⟨fun _ _ => rfl, fun _ _ => rfl⟩,
    lastHop_no_larger_num nhW4 mhEx (fun _ => none) (fun _ _ _ => none) false 4 2 3 2
      (fun _ _ => rfl) (fun _ _ => rfl)⟩
